import Mathlib

/-!
Verification of the semantic-analysis orchestration layer in
`flang/lib/Semantics/semantics.cpp`: the common-block merger
(`CommonBlockMap`), the position-indexed scope lookup
(`SearchScopeIndex` / `FindScope` / `UpdateScopeIndex`), the fixed pass
pipeline (`Semantics::Perform`), the composed checker traversal
(`SemanticsVisitor`), and the analysis-context bookkeeping
(`SetError` / `HasError`, the index-variable redefinition guard).

Each C++ component is shallowly embedded as an executable Lean
definition; machine maps become association lists, pointers become
numeric identities, and aborts (`common::die`, failed `CHECK`) become
`Option.none` results.
-/

namespace Semantics

/-! ## Common-block merger (`CommonBlockMap`, semantics.cpp lines 240-343) -/

/-- A member object of a COMMON block.  `loc` stands for the member
symbol's name location (`member->name()`), and `initialized` models
`IsInitialized(*member)`. -/
structure Member where
  loc : Nat
  initialized : Bool
deriving DecidableEq, Repr

/-- An object of an equivalence set owned by the common block's enclosing
scope (`common.owner().equivalenceSets()`).  `commonOf` models
`FindCommonBlockContaining(obj.symbol)` as the id of the containing
common block, if any. -/
structure EquivObj where
  loc : Nat
  compilerCreated : Bool
  commonOf : Option Nat
  initialized : Bool
deriving DecidableEq, Repr

/-- A common-block symbol as one appearance of a COMMON block in some
program unit.  `id` models the symbol's address (pointer identity),
`name` the block name (empty for blank commons), `linkName` the result of
`GetCommonBlockObjectName(common, context.underscoring())`, `size` the
byte size `common.size()`, `members` the `CommonBlockDetails` objects,
and `equivs` the flattened equivalence objects of the owning scope. -/
structure CommonSym where
  id : Nat
  name : String
  linkName : String
  size : Nat
  members : List Member
  equivs : List EquivObj
deriving DecidableEq, Repr

/-- Model of `CommonBlockMap::CommonBlockIsInitialized` (lines 315-340): return the
location of an initialized member if the COMMON block is initialized,
first scanning direct members, then non-compiler-created equivalence
objects that alias into this block; otherwise `none` (null). -/
def commonBlockIsInitialized (c : CommonSym) : Option Nat :=
  match c.members.find? (fun m => m.initialized) with
  | some m => some m.loc
  | none =>
    match c.equivs.find? (fun o =>
        !o.compilerCreated && o.commonOf == some c.id && o.initialized) with
    | some o => some o.loc
    | none => none

/-- Model of `CommonBlockMap::CommonBlockInfo` (lines 242-248): the appearance with
the biggest size and the appearance carrying the initialized members. -/
structure CommonBlockInfo where
  biggestSize : CommonSym
  initialization : Option CommonSym
deriving DecidableEq, Repr

/-- The `std::map<std::string, CommonBlockInfo> commonBlocks_` field, as an
association list keyed by link name. -/
abbrev CBMap := List (String × CommonBlockInfo)

/-- Lookup in `commonBlocks_` by link name. -/
def cbLookup : CBMap → String → Option CommonBlockInfo
  | [], _ => none
  | (k, v) :: rest, n => if k = n then some v else cbLookup rest n

/-- Insertion of a fresh key into `commonBlocks_`. -/
def cbInsert (m : CBMap) (k : String) (v : CommonBlockInfo) : CBMap :=
  m ++ [(k, v)]

/-- In-place update of the `CommonBlockInfo` stored under an existing key
(the C++ code mutates `it->second` through the iterator). -/
def cbUpdate : CBMap → String → CommonBlockInfo → CBMap
  | [], _, _ => []
  | (k, v) :: rest, n, nv =>
    if k = n then (k, nv) :: rest else (k, v) :: cbUpdate rest n nv

/-- Diagnostics emitted by `MapCommonBlockAndCheckConflicts`:
a fatal "Multiple initialization of COMMON block" error whose primary
location is the current appearance's initialized member and whose
attached note carries the previous initialization representative's
initialized member, or the "should have the same size everywhere"
portability warning citing both sizes. -/
inductive CBDiag where
  | multipleInit (initLoc : Nat) (previousInitLoc : Option Nat) (blockName : String)
  | distinctSizes (hereSize previousSize : Nat) (blockName : String)
deriving DecidableEq, Repr

/-- Whether a diagnostic is the "Multiple initialization" fatal error. -/
def CBDiag.isMultipleInit : CBDiag → Bool
  | .multipleInit _ _ _ => true
  | _ => false

/-- Model of `CommonBlockMap::MapCommonBlockAndCheckConflicts` (lines 251-299):
merge one appearance into the map keyed by link name, returning the
updated map together with the diagnostics emitted by this call.
On the first appearance of a link name the appearance is recorded as the
biggest-size representative and, when initialized, as the initialization
representative.  On later appearances: a conflicting second
initialization reports one fatal error (attaching the previous
initializer); an initialization with no prior representative is adopted;
a differing size of a named block emits a portability warning; a strictly
bigger size becomes the new biggest-size representative. -/
def mapCommonBlockAndCheckConflicts (m : CBMap) (c : CommonSym) :
    CBMap × List CBDiag :=
  let isInit := commonBlockIsInitialized c
  match cbLookup m c.linkName with
  | none =>
    (cbInsert m c.linkName
      ⟨c, if isInit.isSome then some c else none⟩, [])
  | some info =>
    let initStep : Option CommonSym × List CBDiag :=
      match isInit with
      | none => (info.initialization, [])
      | some initLoc =>
        match info.initialization with
        | some prev =>
          if prev.id ≠ c.id then
            (info.initialization,
              [CBDiag.multipleInit initLoc (commonBlockIsInitialized prev) c.name])
          else (some c, [])
        | none => (some c, [])
    let sizeDiags : List CBDiag :=
      if c.size ≠ info.biggestSize.size ∧ c.name ≠ "" then
        [CBDiag.distinctSizes c.size info.biggestSize.size c.name]
      else []
    let biggest : CommonSym :=
      if c.size > info.biggestSize.size then c else info.biggestSize
    (cbUpdate m c.linkName ⟨biggest, initStep.1⟩, initStep.2 ++ sizeDiags)

/-- Model of `CommonBlockMap::GetCommonBlocks` (lines 301-310): for every link name,
report the pair of (initialization representative if any, else
biggest-size representative; biggest observed size). -/
def getCommonBlocks (m : CBMap) : List (CommonSym × Nat) :=
  m.map (fun kv =>
    (kv.2.initialization.getD kv.2.biggestSize, kv.2.biggestSize.size))

/-- A sequence of `MapCommonBlockAndCheckConflicts` calls starting from an
empty map, accumulating all emitted diagnostics. -/
def mapMany (cs : List CommonSym) : CBMap × List CBDiag :=
  cs.foldl
    (fun acc c =>
      let r := mapCommonBlockAndCheckConflicts acc.1 c
      (r.1, acc.2 ++ r.2))
    ([], [])

/-- The largest size among a list of appearances. -/
def maxSizes (cs : List CommonSym) : Nat :=
  cs.foldr (fun c m => Nat.max c.size m) 0

/-! ## Scope location index (semantics.cpp lines 406-455) -/

/-- Model of `parser::CharBlock`: a source range with a starting position and a
byte size; `endPos` is one past the last byte. -/
structure CharBlock where
  start : Nat
  size : Nat
deriving DecidableEq, Repr

/-- Model of `CharBlock::end()`. -/
def CharBlock.endPos (x : CharBlock) : Nat := x.start + x.size

/-- Model of `CharBlock::Contains(that)`: `begin() <= that.begin() && that.end() <= end()`. -/
def CharBlock.Contains (x y : CharBlock) : Prop :=
  x.start ≤ y.start ∧ y.endPos ≤ x.endPos

instance (x y : CharBlock) : Decidable (x.Contains y) :=
  inferInstanceAs (Decidable (_ ∧ _))

/-- Model of `SemanticsContext::ScopeIndexComparator::operator()` (lines 406-410):
keys are ordered by range start, with ties on start broken by larger size
sorting first. -/
def cbLt (x y : CharBlock) : Prop :=
  x.start < y.start ∨ (x.start = y.start ∧ x.size > y.size)

instance (x y : CharBlock) : Decidable (cbLt x y) :=
  inferInstanceAs (Decidable (_ ∨ _))

/-- The `ScopeIndex` multimap, as a list of (key range, scope id) entries
in ascending comparator order. -/
abbrev ScopeIndex := List (CharBlock × Nat)

/-- The multimap ordering invariant: no later entry's key is strictly
smaller than an earlier entry's key. -/
def IndexSorted (idx : ScopeIndex) : Prop :=
  idx.Pairwise (fun a b => ¬ cbLt b.1 a.1)

instance (idx : ScopeIndex) : Decidable (IndexSorted idx) := by
  unfold IndexSorted
  infer_instance

/-- Model of `scopeIndex_.upper_bound(source)`: the position of the first key
strictly greater than the query, on a correctly ordered index. -/
def upperBound (idx : ScopeIndex) (q : CharBlock) : Nat :=
  (idx.takeWhile (fun e => decide (¬ cbLt q e.1))).length

/-- The backward scan of `SearchScopeIndex` (lines 416-422): starting just
below position `n`, examine positions `n-1`, `n-2`, ..., `0` and return
the first whose key contains the query. -/
def searchFrom (idx : ScopeIndex) (q : CharBlock) : Nat → Option Nat
  | 0 => none
  | n + 1 =>
    match idx.get? n with
    | some e => if e.1.Contains q then some n else searchFrom idx q n
    | none => searchFrom idx q n

/-- Model of `SemanticsContext::SearchScopeIndex` (lines 412-425): scan backward
from the upper bound of the query; `none` models returning
`scopeIndex_.end()`. -/
def searchScopeIndex (idx : ScopeIndex) (q : CharBlock) : Option Nat :=
  searchFrom idx q (upperBound idx q)

/-- Model of `SemanticsContext::FindScope` (lines 431-439) restricted to the
defined-behavior region of the scan (the backward scan starts past at
least one key): return the entry found by `SearchScopeIndex`; `none`
models the fatal `common::die("invalid source location")`. -/
def findScope (idx : ScopeIndex) (q : CharBlock) : Option (CharBlock × Nat) :=
  (searchScopeIndex idx q).bind (fun i => idx.get? i)

/-- Complete outcomes of `FindScope` over `SearchScopeIndex`
(lines 412-439): `found` returns a registered entry; `fatal` models
`common::die` (an empty index, or a backward scan that exhausts the index
down to `begin()` without a containing key); `undefinedBehavior` marks
the corner the code leaves undefined: when `upper_bound(source)` is
`begin()` of a nonempty index, the first `--iter` of the do-while
(line 418) decrements `begin()`. -/
inductive FindScopeResult where
  | found (e : CharBlock × Nat)
  | fatal
  | undefinedBehavior
deriving DecidableEq, Repr

/-- Model of `SemanticsContext::SearchScopeIndex`/`FindScope`
(lines 412-439) with the undefined corner made explicit: an empty index
returns `end()` and dies; a nonempty index whose upper bound for the
query is its first entry decrements `begin()` — undefined behavior;
otherwise the do-while examines positions `upperBound - 1` down to `0`,
returning the first containing entry or dying when the scan exhausts the
index. -/
def findScopeFull (idx : ScopeIndex) (q : CharBlock) : FindScopeResult :=
  if idx.isEmpty then .fatal
  else if upperBound idx q = 0 then .undefinedBehavior
  else
    match searchFrom idx q (upperBound idx q) with
    | some i =>
      match idx.get? i with
      | some e => .found e
      | none => .fatal
    | none => .fatal

/-- The backward walk inside `UpdateScopeIndex` (lines 448-451): from
position `n` toward position `0`, find the first entry whose mapped scope
is `s`; `none` models the `CHECK(iter != scopeIndex_.begin())` failure. -/
def findBackValue (idx : ScopeIndex) (s : Nat) : Nat → Option Nat
  | 0 =>
    match idx.get? 0 with
    | some e => if e.2 = s then some 0 else none
    | none => none
  | n + 1 =>
    match idx.get? (n + 1) with
    | some e => if e.2 = s then some (n + 1) else findBackValue idx s n
    | none => none

/-- Model of `scopeIndex_.emplace(key, scope)`: ordered insertion at the upper
bound of the key. -/
def insertEntry : ScopeIndex → CharBlock → Nat → ScopeIndex
  | [], k, v => [(k, v)]
  | e :: rest, k, v =>
    if cbLt k e.1 then (k, v) :: e :: rest else e :: insertEntry rest k v

/-- Model of `SemanticsContext::UpdateScopeIndex` (lines 441-455): register a scope
under its provisional range while its range is still empty; when new
source is not contained in the scope's current range, locate the scope's
existing entry (searching by its current range, then walking back to the
entry mapped to this scope), erase it, and re-insert under the new key.
`srange` is `scope.sourceRange()` at call time; `none` models a failed
`CHECK`. -/
def updateScopeIndex (idx : ScopeIndex) (s : Nat) (srange newSource : CharBlock) :
    Option ScopeIndex :=
  if srange.size = 0 then some (insertEntry idx newSource s)
  else if srange.Contains newSource then some idx
  else
    match searchScopeIndex idx srange with
    | none => none
    | some i =>
      match findBackValue idx s i with
      | none => none
      | some j => some (insertEntry (idx.eraseIdx j) newSource s)

/-! ## Pass pipeline (`Semantics::Perform`, semantics.cpp lines 609-652) -/

/-- The stages of `Semantics::Perform`, in source order (lines 642-652). -/
inductive Stage where
  | validateLabels
  | canonicalizeDo
  | canonicalizeAcc
  | canonicalizeOmp
  | canonicalizeCUDA
  | statementSemantics
  | canonicalizeDirectives
  | writeModuleFiles
deriving DecidableEq, Repr

/-- The boolean outcome each stage would produce if it ran. -/
structure StageResults where
  validateLabels : Bool
  canonicalizeDo : Bool
  canonicalizeAcc : Bool
  canonicalizeOmp : Bool
  canonicalizeCUDA : Bool
  statementSemantics : Bool
  canonicalizeDirectives : Bool
  writeModuleFiles : Bool
deriving DecidableEq, Repr

/-- The outcome of a given stage. -/
def stageResult (r : StageResults) : Stage → Bool
  | .validateLabels => r.validateLabels
  | .canonicalizeDo => r.canonicalizeDo
  | .canonicalizeAcc => r.canonicalizeAcc
  | .canonicalizeOmp => r.canonicalizeOmp
  | .canonicalizeCUDA => r.canonicalizeCUDA
  | .statementSemantics => r.statementSemantics
  | .canonicalizeDirectives => r.canonicalizeDirectives
  | .writeModuleFiles => r.writeModuleFiles

/-- The fixed stage order of the `&&` chain in `Semantics::Perform`. -/
def pipelineOrder : List Stage :=
  [.validateLabels, .canonicalizeDo, .canonicalizeAcc, .canonicalizeOmp,
   .canonicalizeCUDA, .statementSemantics, .canonicalizeDirectives,
   .writeModuleFiles]

/-- The stages that actually execute under C++ short-circuit `&&`
evaluation: each stage runs only if all previous stages succeeded. -/
def executedStagesFrom (r : StageResults) : List Stage → List Stage
  | [] => []
  | s :: rest =>
    if stageResult r s then s :: executedStagesFrom r rest else [s]

/-- The stages executed by one `Semantics::Perform` call. -/
def executedStages (r : StageResults) : List Stage :=
  executedStagesFrom r pipelineOrder

/-- Model of `Semantics::Perform` (lines 642-652): the conjunction of all stage
results under short-circuit evaluation. -/
def perform (r : StageResults) : Bool :=
  r.validateLabels && r.canonicalizeDo && r.canonicalizeAcc &&
  r.canonicalizeOmp && r.canonicalizeCUDA && r.statementSemantics &&
  r.canonicalizeDirectives && r.writeModuleFiles

/-! ## Composed checker traversal (`SemanticsVisitor`, lines 74-124)

`parser::Walk` calls `Pre(node)` before a node's children and
`Post(node)` after them.  For `parser::Statement` nodes, `Pre` sets the
context's current location to the statement's source before dispatching
`Enter`, and `Post` resets the location to `std::nullopt` after
dispatching `Leave`; for construct nodes a construct marker is pushed
before `Enter` and popped after `Leave`.  `Enter`/`Leave` dispatch to the
handlers the checker modules define for the node type (the class comment,
lines 69-73: no two checkers may define the same handler); the model runs
each module's handler in module-list order. -/

/-- A fragment of the parse tree: a statement node carrying its source
span, an executable construct node, or any other node. -/
inductive PTree where
  | stmt (span : Nat) (kids : List PTree)
  | construct (kids : List PTree)
  | plain (kids : List PTree)
deriving Repr

/-- Observable traversal events: current-location updates, per-module
Enter/Leave handler invocations, construct-stack pushes and pops. -/
inductive Ev where
  | setLoc (l : Option Nat)
  | enter (m : Nat)
  | leave (m : Nat)
  | pushConstruct
  | popConstruct
deriving DecidableEq, Repr

/-- Whether an event is a current-location update. -/
def Ev.isSetLoc : Ev → Bool
  | .setLoc _ => true
  | _ => false

mutual

/-- The event trace of `parser::Walk(node, visitor)` for a
`SemanticsVisitor` composed of the modules `mods`. -/
def walkTree (mods : List Nat) : PTree → List Ev
  | .stmt span kids =>
    Ev.setLoc (some span) ::
      (mods.map Ev.enter ++ walkKids mods kids ++ mods.map Ev.leave ++
        [Ev.setLoc none])
  | .construct kids =>
    Ev.pushConstruct ::
      (mods.map Ev.enter ++ walkKids mods kids ++ mods.map Ev.leave ++
        [Ev.popConstruct])
  | .plain kids =>
    mods.map Ev.enter ++ walkKids mods kids ++ mods.map Ev.leave

/-- The event trace of visiting a list of children in order. -/
def walkKids (mods : List Nat) : List PTree → List Ev
  | [] => []
  | t :: ts => walkTree mods t ++ walkKids mods ts

end

mutual

/-- Whether a tree fragment contains no statement node. -/
def stmtFreeT : PTree → Bool
  | .stmt _ _ => false
  | .construct kids => stmtFreeL kids
  | .plain kids => stmtFreeL kids

/-- Whether a list of tree fragments contains no statement node. -/
def stmtFreeL : List PTree → Bool
  | [] => true
  | t :: ts => stmtFreeT t && stmtFreeL ts

end

/-- The context's current location after processing a list of events,
starting from `l` (`set_location` overwrites, every other event leaves
the location unchanged). -/
def locAfter (l : Option Nat) : List Ev → Option Nat
  | [] => l
  | e :: rest =>
    locAfter (match e with | .setLoc l2 => l2 | _ => l) rest

/-! ## Diagnostics and error bookkeeping (lines 378-404) -/

/-- Diagnostic severities relevant here. -/
inductive Severity where
  | error
  | warning
  | portability
deriving DecidableEq, Repr

/-- A diagnostic message. -/
structure Msg where
  severity : Severity
deriving DecidableEq, Repr

/-- Whether a message is fatal, given the warnings-are-errors mode
(`parser::Messages::AnyFatalError(warningsAreErrors)` counts errors
always and warnings only in that mode). -/
def msgIsFatal (warningsAreErrors : Bool) (m : Msg) : Bool :=
  match m.severity with
  | .error => true
  | .warning => warningsAreErrors
  | .portability => false

/-- Model of `SemanticsContext::AnyFatalError` (lines 378-380) over a message
list. -/
def anyFatalError (warningsAreErrors : Bool) (msgs : List Msg) : Bool :=
  msgs.any (fun m => msgIsFatal warningsAreErrors m)

/-- Model of `SemanticsVisitor::Walk` (lines 117-120): after the traversal has
appended its own diagnostics (`walkMsgs`) to those already on the context
(`preMsgs`), the result is `!context_.AnyFatalError()` over the context's
entire message list. -/
def visitorWalkResult (warningsAreErrors : Bool)
    (preMsgs walkMsgs : List Msg) : Bool :=
  !(anyFatalError warningsAreErrors (preMsgs ++ walkMsgs))

/-- The `SemanticsContext` state relevant to error bookkeeping: the
diagnostic sink and the `errorSymbols_` set (symbols by id). -/
structure ErrCtx where
  warningsAreErrors : Bool
  messages : List Msg
  errorSymbols : List Nat
deriving DecidableEq, Repr

/-- Model of `SemanticsContext::AnyFatalError` on a context. -/
def ctxAnyFatalError (c : ErrCtx) : Bool :=
  anyFatalError c.warningsAreErrors c.messages

/-- Model of `SemanticsContext::HasError(const Symbol &)` (lines 381-383):
membership in `errorSymbols_`. -/
def hasError (c : ErrCtx) (s : Nat) : Bool :=
  c.errorSymbols.contains s

/-- Model of `SemanticsContext::SetError` (lines 390-395): with `value` true, first
`CheckError` (lines 396-404) aborts via `common::die` unless a fatal
diagnostic has already been recorded — modelled as `none` — then the
symbol is added to `errorSymbols_`; with `value` false nothing happens. -/
def setError (c : ErrCtx) (s : Nat) (value : Bool) : Option ErrCtx :=
  if value then
    if ctxAnyFatalError c then
      some { c with errorSymbols := s :: c.errorSymbols }
    else none
  else some c

/-- Model of `SemanticsContext::HasError(const Symbol *)` (lines 384-386):
`!symbol || HasError(*symbol)` — a null pointer reports an error. -/
def hasErrorPtr (c : ErrCtx) : Option Nat → Bool
  | none => true
  | some s => hasError c s

/-- Model of `parser::Name`: a source location and the symbol bound by name
resolution, if any. -/
structure PName where
  source : Nat
  symbol : Option Nat
deriving DecidableEq, Repr

/-- Model of `SemanticsContext::HasError(const parser::Name &)` (lines 387-389). -/
def hasErrorName (c : ErrCtx) (name : PName) : Bool :=
  hasErrorPtr c name.symbol

/-! ## `MiscChecker::CheckAssignGotoName` (lines 142-158) -/

/-- Type categories of `evaluate::DynamicType`. -/
inductive TypeCat where
  | integer
  | real
  | logical
  | character
  | complexPart
  | derived
deriving DecidableEq, Repr

/-- The attributes of a resolved symbol consulted by
`CheckAssignGotoName`: `IsVariableName(symbol)`, `symbol.Rank()`, and
`DynamicType::From(symbol)` as an optional (category, kind) pair. -/
structure SymProps where
  isVariable : Bool
  rank : Nat
  dynType : Option (TypeCat × Nat)
deriving DecidableEq, Repr

/-- The diagnostic emitted by `CheckAssignGotoName`: "must be a default
integer scalar variable", at the name's source, with a note attached at
the symbol's declaration. -/
structure AssignGotoDiag where
  source : Nat
  symbol : Nat
deriving DecidableEq, Repr

/-- Model of `MiscChecker::CheckAssignGotoName` (lines 142-158): return immediately
with no diagnostic when `HasError(name.symbol)` — in particular whenever
the name has no symbol — otherwise emit the error unless the symbol is a
scalar variable of the default integer kind. -/
def checkAssignGotoName (c : ErrCtx) (props : Nat → SymProps)
    (defaultIntKind : Nat) (name : PName) : List AssignGotoDiag :=
  if hasErrorName c name then []
  else
    match name.symbol with
    | none => []
    | some s =>
      let p := props s
      if !p.isVariable || p.rank != 0 ||
          (match p.dynType with
           | none => true
           | some (cat, k) => cat != TypeCat.integer || k != defaultIntKind) then
        [{ source := name.source, symbol := s }]
      else []

/-! ## Index-variable redefinition guard (lines 472-531) -/

/-- Model of `IndexVarKind` (DO or FORALL). -/
inductive IndexVarKind where
  | DO
  | FORALL
deriving DecidableEq, Repr

/-- Model of `IndexVarInfo`: activation location and construct kind. -/
structure IndexVarInfo where
  location : Nat
  kind : IndexVarKind
deriving DecidableEq, Repr

/-- The `activeIndexVars_` map from resolved symbol ids to
`IndexVarInfo`, as an association list with unique keys. -/
abbrev IndexVarTable := List (Nat × IndexVarInfo)

/-- Lookup in `activeIndexVars_`. -/
def lookupIV : IndexVarTable → Nat → Option IndexVarInfo
  | [], _ => none
  | (k, v) :: rest, n => if k = n then some v else lookupIV rest n

/-- Model of `activeIndexVars_.emplace(key, info)`: `std::map::emplace` inserts
only when the key is absent and leaves an existing entry unchanged. -/
def emplaceIV (tbl : IndexVarTable) (k : Nat) (v : IndexVarInfo) :
    IndexVarTable :=
  if (lookupIV tbl k).isSome then tbl else (k, v) :: tbl

/-- The diagnostic of `CheckIndexVarRedefine` (lines 472-485): primary
location, the kind of the enclosing construct, and the attached
"Enclosing construct" note at the activation location. -/
structure IVDiag where
  location : Nat
  kind : IndexVarKind
  attachLoc : Nat
deriving DecidableEq, Repr

/-- Model of `SemanticsContext::CheckIndexVarRedefine(location, variable, msg)`
(lines 472-485): after resolving associations, report a diagnostic
exactly when the underlying entity has an active entry, attaching that
entry's activation location.  `resolve` models `ResolveAssociations`. -/
def checkIndexVarRedefine (resolve : Nat → Nat) (tbl : IndexVarTable)
    (location : Nat) (sym : Nat) : Option IVDiag :=
  match lookupIV tbl (resolve sym) with
  | some info =>
    some { location := location, kind := info.kind, attachLoc := info.location }
  | none => none

/-- The `parser::Name` overload of `CheckIndexVarRedefine`
(lines 509-513): a name without a symbol checks nothing. -/
def checkIndexVarRedefineName (resolve : Nat → Nat) (tbl : IndexVarTable)
    (name : PName) : Option IVDiag :=
  match name.symbol with
  | some s => checkIndexVarRedefine resolve tbl name.source s
  | none => none

/-- Model of `SemanticsContext::ActivateIndexVar` (lines 515-522): first check for
an active entry of the same underlying entity (reporting the redefinition
diagnostic if found), then `emplace` the new entry for the resolved
symbol.  Returns the diagnostic (if any) and the updated table. -/
def activateIndexVar (resolve : Nat → Nat) (tbl : IndexVarTable)
    (name : PName) (kind : IndexVarKind) : Option IVDiag × IndexVarTable :=
  let d := checkIndexVarRedefineName resolve tbl name
  match name.symbol with
  | some s =>
    (d, emplaceIV tbl (resolve s) { location := name.source, kind := kind })
  | none => (d, tbl)

/-! ## Theorems -/

/-- The executed stages always form an initial segment of the stage list
they are drawn from. -/
theorem executedStagesFrom_initial (r : StageResults) :
    ∀ l : List Stage, ∃ t, executedStagesFrom r l ++ t = l := by
  intro l
  induction l with
  | nil => exact ⟨[], rfl⟩
  | cons s rest ih =>
    by_cases h : stageResult r s = true
    · obtain ⟨t, ht⟩ := ih
      exact ⟨t, by simp [executedStagesFrom, h, ht]⟩
    · exact ⟨rest, by simp [executedStagesFrom, h]⟩

/-- C5: `Semantics::Perform` runs its stages in the fixed order and
short-circuits at the first failing stage; in particular a label
validation failure makes it the only executed stage and the overall
result failure. -/
theorem perform_short_circuits (r : StageResults) :
    (∃ t, executedStages r ++ t = pipelineOrder) ∧
    (perform r = true ↔ ∀ s ∈ pipelineOrder, stageResult r s = true) ∧
    (r.validateLabels = false →
      perform r = false ∧ executedStages r = [Stage.validateLabels]) := by
  refine ⟨executedStagesFrom_initial r pipelineOrder, ?_, ?_⟩
  · constructor
    · intro hp s hs
      simp only [perform, Bool.and_eq_true] at hp
      obtain ⟨⟨⟨⟨⟨⟨⟨h1, h2⟩, h3⟩, h4⟩, h5⟩, h6⟩, h7⟩, h8⟩ := hp
      simp only [pipelineOrder, List.mem_cons, List.not_mem_nil, or_false]
        at hs
      rcases hs with rfl | rfl | rfl | rfl | rfl | rfl | rfl | rfl <;>
        simp [stageResult, h1, h2, h3, h4, h5, h6, h7, h8]
    · intro h
      simp only [perform, Bool.and_eq_true]
      refine ⟨⟨⟨⟨⟨⟨⟨?_, ?_⟩, ?_⟩, ?_⟩, ?_⟩, ?_⟩, ?_⟩, ?_⟩
      · exact h Stage.validateLabels (by simp [pipelineOrder])
      · exact h Stage.canonicalizeDo (by simp [pipelineOrder])
      · exact h Stage.canonicalizeAcc (by simp [pipelineOrder])
      · exact h Stage.canonicalizeOmp (by simp [pipelineOrder])
      · exact h Stage.canonicalizeCUDA (by simp [pipelineOrder])
      · exact h Stage.statementSemantics (by simp [pipelineOrder])
      · exact h Stage.canonicalizeDirectives (by simp [pipelineOrder])
      · exact h Stage.writeModuleFiles (by simp [pipelineOrder])
  · intro h
    constructor
    · simp [perform, h]
    · simp [executedStages, pipelineOrder, executedStagesFrom, stageResult, h]

/-- Witness for C5: with label validation failing and every other stage
able to succeed, `Perform` fails and only label validation executes. -/
theorem perform_short_circuits_witness :
    (StageResults.mk false true true true true true true true).validateLabels
        = false ∧
    perform (StageResults.mk false true true true true true true true)
        = false ∧
    executedStages (StageResults.mk false true true true true true true true)
        = [Stage.validateLabels] :=
  ⟨rfl,
    (perform_short_circuits
      (StageResults.mk false true true true true true true true)).2.2 rfl⟩

/-- Counterexample to C7: a fatal error reported before the walk makes
`Walk` return `false` even though no fatal diagnostic was reported during
the walk, so the result is not independent of pre-walk diagnostics. -/
theorem visitorWalkResult_counterexample :
    visitorWalkResult false [Msg.mk Severity.error] [] = false ∧
    anyFatalError false [] = false := by
  constructor <;> rfl

/-- C7 amended: `SemanticsVisitor::Walk` returns `true` iff no fatal
diagnostic is present on the context at the end of the walk, counting the
diagnostics reported before the walk began together with those reported
during it. -/
theorem visitorWalkResult_iff_no_fatal_overall (w : Bool)
    (preMsgs walkMsgs : List Msg) :
    visitorWalkResult w preMsgs walkMsgs = true ↔
      anyFatalError w (preMsgs ++ walkMsgs) = false := by
  simp [visitorWalkResult]

/-- C9: setting the error flag with no fatal diagnostic recorded aborts
(`none`); once a fatal diagnostic exists, `SetError(symbol, true)` adds
the symbol to the error set and `HasError` reports it. -/
theorem setError_guard_and_record (c : ErrCtx) (s : Nat) :
    (ctxAnyFatalError c = false → setError c s true = none) ∧
    (ctxAnyFatalError c = true →
      ∃ c2, setError c s true = some c2 ∧ hasError c2 s = true) := by
  constructor
  · intro h
    simp [setError, h]
  · intro h
    refine ⟨{ c with errorSymbols := s :: c.errorSymbols }, ?_, ?_⟩
    · simp [setError, h]
    · simp [hasError]

/-- Witness for C9: both the abort branch and the recording branch at
concrete contexts. -/
theorem setError_guard_and_record_witness :
    (ctxAnyFatalError (ErrCtx.mk false [] []) = false ∧
      setError (ErrCtx.mk false [] []) 7 true = none) ∧
    (ctxAnyFatalError (ErrCtx.mk false [Msg.mk Severity.error] []) = true ∧
      ∃ c2, setError (ErrCtx.mk false [Msg.mk Severity.error] []) 7 true
          = some c2 ∧ hasError c2 7 = true) :=
  ⟨⟨by decide, (setError_guard_and_record (ErrCtx.mk false [] []) 7).1
      (by decide)⟩,
   ⟨by decide,
    (setError_guard_and_record (ErrCtx.mk false [Msg.mk Severity.error] []) 7).2
      (by decide)⟩⟩

/-- C10: `HasError` on a null symbol pointer returns `true`, and
`CheckAssignGotoName` (the caller dereferencing the symbol) therefore
emits no diagnostic for a name whose symbol was never resolved. -/
theorem hasError_null_and_suppression (c : ErrCtx) :
    hasErrorPtr c none = true ∧
    (∀ (props : Nat → SymProps) (defaultIntKind : Nat) (name : PName),
      name.symbol = none →
      checkAssignGotoName c props defaultIntKind name = []) := by
  refine ⟨rfl, ?_⟩
  intro props dk name h
  simp [checkAssignGotoName, hasErrorName, h, hasErrorPtr]

/-- Witness for C10 at a concrete unresolved name. -/
theorem hasError_null_and_suppression_witness :
    (PName.mk 5 none).symbol = none ∧
    hasErrorPtr (ErrCtx.mk false [] []) none = true ∧
    checkAssignGotoName (ErrCtx.mk false [] [])
      (fun _ => SymProps.mk true 0 none) 4 (PName.mk 5 none) = [] :=
  ⟨rfl, (hasError_null_and_suppression (ErrCtx.mk false [] [])).1,
    (hasError_null_and_suppression (ErrCtx.mk false [] [])).2
      (fun _ => SymProps.mk true 0 none) 4 (PName.mk 5 none) rfl⟩

/-- Counterexample to C8: activating an index variable whose underlying
entity already has an active entry reports the diagnostic but leaves the
old (location, kind) in the table — `std::map::emplace` does not
overwrite — so the table does not record the new pair. -/
theorem activateIndexVar_counterexample :
    (activateIndexVar (fun x => x)
        [(1, IndexVarInfo.mk 0 IndexVarKind.DO)]
        (PName.mk 5 (some 1)) IndexVarKind.FORALL).2
      = [(1, IndexVarInfo.mk 0 IndexVarKind.DO)] ∧
    (activateIndexVar (fun x => x)
        [(1, IndexVarInfo.mk 0 IndexVarKind.DO)]
        (PName.mk 5 (some 1)) IndexVarKind.FORALL).1
      = some (IVDiag.mk 5 IndexVarKind.DO 0) ∧
    IndexVarInfo.mk 0 IndexVarKind.DO ≠ IndexVarInfo.mk 5 IndexVarKind.FORALL := by
  refine ⟨rfl, rfl, by decide⟩

/-- C8 amended: `ActivateIndexVar` reports the redefinition diagnostic
exactly when the resolved entity already has an active entry; it inserts
the new (location, kind) only when no entry exists, and an existing entry
is left unchanged. -/
theorem activateIndexVar_check_then_emplace (resolve : Nat → Nat)
    (tbl : IndexVarTable) (name : PName) (kind : IndexVarKind) (s : Nat)
    (h : name.symbol = some s) :
    ((activateIndexVar resolve tbl name kind).1.isSome ↔
      (lookupIV tbl (resolve s)).isSome) ∧
    (lookupIV tbl (resolve s) = none →
      (activateIndexVar resolve tbl name kind).2 =
        (resolve s, IndexVarInfo.mk name.source kind) :: tbl) ∧
    (∀ info, lookupIV tbl (resolve s) = some info →
      (activateIndexVar resolve tbl name kind).2 = tbl ∧
      (activateIndexVar resolve tbl name kind).1 =
        some (IVDiag.mk name.source info.kind info.location)) := by
  cases hl : lookupIV tbl (resolve s) with
  | none =>
    refine ⟨?_, ?_, ?_⟩
    · simp [activateIndexVar, checkIndexVarRedefineName, h,
        checkIndexVarRedefine, hl]
    · intro _
      simp [activateIndexVar, h, emplaceIV, hl]
    · intro info hinfo
      simp [hl] at hinfo
  | some info =>
    refine ⟨?_, ?_, ?_⟩
    · simp [activateIndexVar, checkIndexVarRedefineName, h,
        checkIndexVarRedefine, hl]
    · intro hnone
      simp [hl] at hnone
    · intro info2 hinfo2
      have he : info = info2 := Option.some.inj hinfo2
      subst he
      constructor
      · simp [activateIndexVar, h, emplaceIV, hl]
      · simp [activateIndexVar, checkIndexVarRedefineName, h,
          checkIndexVarRedefine, hl]

/-- Witness for C8 amended: activating a fresh entity inserts its entry. -/
theorem activateIndexVar_check_then_emplace_witness :
    (PName.mk 5 (some 1)).symbol = some 1 ∧
    lookupIV [] ((fun x => x) 1) = none ∧
    (activateIndexVar (fun x => x) [] (PName.mk 5 (some 1))
        IndexVarKind.DO).2
      = [(1, IndexVarInfo.mk 5 IndexVarKind.DO)] :=
  ⟨rfl, rfl,
    (activateIndexVar_check_then_emplace (fun x => x) []
      (PName.mk 5 (some 1)) IndexVarKind.DO 1 rfl).2.1 rfl⟩

/-- The map component of `mapMany` is the fold of the map-only step. -/
theorem mapMany_fst (cs : List CommonSym) :
    (mapMany cs).1 =
      cs.foldl (fun m c => (mapCommonBlockAndCheckConflicts m c).1) [] := by
  have key : ∀ (l : List CommonSym) (m : CBMap) (d : List CBDiag),
      (l.foldl (fun acc c =>
        let r := mapCommonBlockAndCheckConflicts acc.1 c
        (r.1, acc.2 ++ r.2)) (m, d)).1 =
      l.foldl (fun m2 c => (mapCommonBlockAndCheckConflicts m2 c).1) m := by
    intro l
    induction l with
    | nil => intro m d; rfl
    | cons c rest ih =>
      intro m d
      simp only [List.foldl_cons]
      exact ih _ _
  exact key cs [] []

/-- Prepending an appearance takes the maximum with its size. -/
theorem maxSizes_cons (c : CommonSym) (cs : List CommonSym) :
    maxSizes (c :: cs) = Nat.max c.size (maxSizes cs) := rfl

/-- Associativity of `Nat.max`, in the orientation used below. -/
theorem natMax_assoc (a b c : Nat) :
    Nat.max (Nat.max a b) c = Nat.max a (Nat.max b c) := by
  simp only [Nat.max_def]
  split_ifs <;> omega

/-- Left commutativity of `Nat.max`. -/
theorem natMax_left_comm (a b c : Nat) :
    Nat.max a (Nat.max b c) = Nat.max b (Nat.max a c) := by
  simp only [Nat.max_def]
  split_ifs <;> omega

/-- The largest observed size is invariant under permutation of the
appearance order. -/
theorem maxSizes_perm {cs cs2 : List CommonSym} (h : cs.Perm cs2) :
    maxSizes cs = maxSizes cs2 := by
  induction h with
  | nil => rfl
  | cons x _ ih => rw [maxSizes_cons, maxSizes_cons, ih]
  | swap x y l =>
    rw [maxSizes_cons, maxSizes_cons, maxSizes_cons, maxSizes_cons]
    rw [natMax_left_comm]
  | trans _ _ ih1 ih2 => exact ih1.trans ih2

/-- Folding appearances of a single link name over a single-entry map
keeps the map single-entry, accumulates the maximum size into the
biggest-size representative, and records an initialization representative
exactly when one existed before or some folded appearance is
initialized. -/
theorem fold_single_key (L : String) (cs : List CommonSym) :
    ∀ info : CommonBlockInfo, (∀ c ∈ cs, c.linkName = L) →
      ∃ info2,
        cs.foldl (fun m c => (mapCommonBlockAndCheckConflicts m c).1)
            [(L, info)] = [(L, info2)] ∧
        info2.biggestSize.size =
          Nat.max info.biggestSize.size (maxSizes cs) ∧
        (info2.initialization.isSome ↔
          (info.initialization.isSome ∨
            ∃ c ∈ cs, (commonBlockIsInitialized c).isSome)) := by
  induction cs with
  | nil =>
    intro info _
    exact ⟨info, rfl, by simp [maxSizes], by simp⟩
  | cons c rest ih =>
    intro info hL
    have hc : c.linkName = L := hL c (by simp)
    have hrest : ∀ c2 ∈ rest, c2.linkName = L := fun c2 h2 => hL c2 (by simp [h2])
    have hbig : (if c.size > info.biggestSize.size then c
        else info.biggestSize).size = Nat.max info.biggestSize.size c.size := by
      by_cases h : info.biggestSize.size < c.size
      · simp only [gt_iff_lt, if_pos h, Nat.max_def]
        split_ifs <;> omega
      · simp only [gt_iff_lt, if_neg h, Nat.max_def]
        split_ifs <;> omega
    have hlook : cbLookup [(L, info)] c.linkName = some info := by
      simp [cbLookup, hc]
    -- the updated initialization field in each branch of the merge step
    cases hi : commonBlockIsInitialized c with
    | none =>
      have hstep : (mapCommonBlockAndCheckConflicts [(L, info)] c).1 =
          [(L, ⟨if c.size > info.biggestSize.size then c
            else info.biggestSize, info.initialization⟩)] := by
        simp [mapCommonBlockAndCheckConflicts, cbLookup, hi, cbUpdate, hc]
      obtain ⟨info2, hfold, hsz, hinit⟩ :=
        ih ⟨if c.size > info.biggestSize.size then c
          else info.biggestSize, info.initialization⟩ hrest
      refine ⟨info2, ?_, ?_, ?_⟩
      · rw [List.foldl_cons, hstep]; exact hfold
      · rw [hsz]; simp only [hbig, maxSizes_cons]; rw [natMax_assoc]
      · rw [hinit]
        simp [hi]
    | some l =>
      cases hp : info.initialization with
      | none =>
        have hstep : (mapCommonBlockAndCheckConflicts [(L, info)] c).1 =
            [(L, ⟨if c.size > info.biggestSize.size then c
              else info.biggestSize, some c⟩)] := by
          simp [mapCommonBlockAndCheckConflicts, cbLookup, hi, hp, cbUpdate, hc]
        obtain ⟨info2, hfold, hsz, hinit⟩ :=
          ih ⟨if c.size > info.biggestSize.size then c
            else info.biggestSize, some c⟩ hrest
        refine ⟨info2, ?_, ?_, ?_⟩
        · rw [List.foldl_cons, hstep]; exact hfold
        · rw [hsz]; simp only [hbig, maxSizes_cons]; rw [natMax_assoc]
        · rw [hinit]
          simp [hi]
      | some prev =>
        by_cases hd : prev.id = c.id
        · have hstep : (mapCommonBlockAndCheckConflicts [(L, info)] c).1 =
              [(L, ⟨if c.size > info.biggestSize.size then c
                else info.biggestSize, some c⟩)] := by
            simp [mapCommonBlockAndCheckConflicts, cbLookup, hi, hp, hd,
              cbUpdate, hc]
          obtain ⟨info2, hfold, hsz, hinit⟩ :=
            ih ⟨if c.size > info.biggestSize.size then c
              else info.biggestSize, some c⟩ hrest
          refine ⟨info2, ?_, ?_, ?_⟩
          · rw [List.foldl_cons, hstep]; exact hfold
          · rw [hsz]; simp only [hbig, maxSizes_cons]; rw [natMax_assoc]
          · rw [hinit]
            simp [hi]
        · have hstep : (mapCommonBlockAndCheckConflicts [(L, info)] c).1 =
              [(L, ⟨if c.size > info.biggestSize.size then c
                else info.biggestSize, some prev⟩)] := by
            simp [mapCommonBlockAndCheckConflicts, cbLookup, hi, hp, hd,
              cbUpdate, hc]
          obtain ⟨info2, hfold, hsz, hinit⟩ :=
            ih ⟨if c.size > info.biggestSize.size then c
              else info.biggestSize, some prev⟩ hrest
          refine ⟨info2, ?_, ?_, ?_⟩
          · rw [List.foldl_cons, hstep]; exact hfold
          · rw [hsz]; simp only [hbig, maxSizes_cons]; rw [natMax_assoc]
          · rw [hinit]
            simp [hi]

/-- A nonempty sequence of merges of appearances sharing one link name
produces a single-entry map whose biggest size is the maximum observed
and whose initialization representative exists exactly when some
appearance is initialized. -/
theorem mapMany_single_key (cs : List CommonSym) (L : String)
    (hne : cs ≠ []) (hL : ∀ c ∈ cs, c.linkName = L) :
    ∃ info, (mapMany cs).1 = [(L, info)] ∧
      info.biggestSize.size = maxSizes cs ∧
      (info.initialization.isSome ↔
        ∃ c ∈ cs, (commonBlockIsInitialized c).isSome) := by
  obtain ⟨c0, rest, rfl⟩ := List.exists_cons_of_ne_nil hne
  have hc0 : c0.linkName = L := hL c0 (by simp)
  have hrest : ∀ c2 ∈ rest, c2.linkName = L := fun c2 h2 => hL c2 (by simp [h2])
  have h0 : (mapCommonBlockAndCheckConflicts [] c0).1 =
      [(L, ⟨c0, if (commonBlockIsInitialized c0).isSome then some c0
        else none⟩)] := by
    simp [mapCommonBlockAndCheckConflicts, cbLookup, cbInsert, hc0]
  obtain ⟨info, hfold, hsz, hinit⟩ :=
    fold_single_key L rest
      ⟨c0, if (commonBlockIsInitialized c0).isSome then some c0 else none⟩
      hrest
  refine ⟨info, ?_, ?_, ?_⟩
  · rw [mapMany_fst, List.foldl_cons, h0]; exact hfold
  · rw [hsz, maxSizes_cons]
  · rw [hinit]
    cases hb : commonBlockIsInitialized c0 <;> simp [hb]

/-- C1: after any sequence of `MapCommonBlockAndCheckConflicts` calls for
appearances sharing one link name, `GetCommonBlocks` reports for that
link name a pair whose size is the maximum of the appearance sizes —
invariant under permutation of the call order — and whose representative
is the initialization representative when any appearance is initialized,
else the biggest-size representative. -/
theorem getCommonBlocks_reports_max_and_init_rep (cs : List CommonSym)
    (L : String) (hne : cs ≠ []) (hL : ∀ c ∈ cs, c.linkName = L) :
    ∃ info,
      cbLookup (mapMany cs).1 L = some info ∧
      getCommonBlocks (mapMany cs).1 =
        [(info.initialization.getD info.biggestSize,
          info.biggestSize.size)] ∧
      info.biggestSize.size = maxSizes cs ∧
      (info.initialization.isSome ↔
        ∃ c ∈ cs, (commonBlockIsInitialized c).isSome) ∧
      (∀ cs2, cs.Perm cs2 → ∃ info2,
        cbLookup (mapMany cs2).1 L = some info2 ∧
        info2.biggestSize.size = maxSizes cs) := by
  obtain ⟨info, hm, hsz, hinit⟩ := mapMany_single_key cs L hne hL
  refine ⟨info, ?_, ?_, hsz, hinit, ?_⟩
  · rw [hm]; simp [cbLookup]
  · rw [hm]; rfl
  · intro cs2 hperm
    have hne2 : cs2 ≠ [] := by
      intro h
      subst h
      exact hne hperm.eq_nil
    have hL2 : ∀ c ∈ cs2, c.linkName = L :=
      fun c hcm => hL c (hperm.mem_iff.2 hcm)
    obtain ⟨info2, hm2, hsz2, _⟩ := mapMany_single_key cs2 L hne2 hL2
    refine ⟨info2, ?_, ?_⟩
    · rw [hm2]; simp [cbLookup]
    · rw [hsz2, maxSizes_perm hperm]

/-- Witness for C1: two appearances of `/blk/` with sizes 4 and 9, the
first initialized: the reported size is 9 and the representative is the
initialized first appearance. -/
theorem getCommonBlocks_reports_max_and_init_rep_witness :
    ([CommonSym.mk 1 "blk" "blk_" 4 [Member.mk 10 true] [],
      CommonSym.mk 2 "blk" "blk_" 9 [] []] : List CommonSym) ≠ [] ∧
    (∀ c ∈ ([CommonSym.mk 1 "blk" "blk_" 4 [Member.mk 10 true] [],
      CommonSym.mk 2 "blk" "blk_" 9 [] []] : List CommonSym),
      c.linkName = "blk_") ∧
    (∃ info,
      cbLookup (mapMany [CommonSym.mk 1 "blk" "blk_" 4 [Member.mk 10 true] [],
        CommonSym.mk 2 "blk" "blk_" 9 [] []]).1 "blk_" = some info ∧
      getCommonBlocks (mapMany [CommonSym.mk 1 "blk" "blk_" 4
        [Member.mk 10 true] [], CommonSym.mk 2 "blk" "blk_" 9 [] []]).1 =
        [(info.initialization.getD info.biggestSize,
          info.biggestSize.size)] ∧
      info.biggestSize.size =
        maxSizes [CommonSym.mk 1 "blk" "blk_" 4 [Member.mk 10 true] [],
          CommonSym.mk 2 "blk" "blk_" 9 [] []] ∧
      (info.initialization.isSome ↔
        ∃ c ∈ ([CommonSym.mk 1 "blk" "blk_" 4 [Member.mk 10 true] [],
          CommonSym.mk 2 "blk" "blk_" 9 [] []] : List CommonSym),
          (commonBlockIsInitialized c).isSome) ∧
      (∀ cs2, ([CommonSym.mk 1 "blk" "blk_" 4 [Member.mk 10 true] [],
          CommonSym.mk 2 "blk" "blk_" 9 [] []] : List CommonSym).Perm cs2 →
        ∃ info2, cbLookup (mapMany cs2).1 "blk_" = some info2 ∧
          info2.biggestSize.size =
            maxSizes [CommonSym.mk 1 "blk" "blk_" 4 [Member.mk 10 true] [],
              CommonSym.mk 2 "blk" "blk_" 9 [] []])) :=
  ⟨by decide, by decide,
    getCommonBlocks_reports_max_and_init_rep
      [CommonSym.mk 1 "blk" "blk_" 4 [Member.mk 10 true] [],
        CommonSym.mk 2 "blk" "blk_" 9 [] []] "blk_" (by decide) (by decide)⟩

/-- C2: merging a second appearance of a common block that carries its
own initialized member while a different appearance is already the
initialization representative reports exactly one "multiple
initialization" fatal error whose attached note carries the first
appearance's initializer location, and the first appearance stays the
representative; when the later appearance is initialized and no prior
initialization representative exists, it is adopted with no
diagnostic. -/
theorem multiple_initialization_reported_once
    (c1 c2 : CommonSym) (l1 l2 : Nat)
    (hL : c2.linkName = c1.linkName) (hid : c1.id ≠ c2.id)
    (h1 : commonBlockIsInitialized c1 = some l1)
    (h2 : commonBlockIsInitialized c2 = some l2) :
    ((mapCommonBlockAndCheckConflicts [] c1).2 = [] ∧
     (mapCommonBlockAndCheckConflicts
        (mapCommonBlockAndCheckConflicts [] c1).1 c2).2.countP
          (fun d => d.isMultipleInit) = 1 ∧
     (mapCommonBlockAndCheckConflicts
        (mapCommonBlockAndCheckConflicts [] c1).1 c2).2.head? =
        some (CBDiag.multipleInit l2 (some l1) c2.name) ∧
     (∃ info, cbLookup (mapCommonBlockAndCheckConflicts
        (mapCommonBlockAndCheckConflicts [] c1).1 c2).1 c1.linkName
          = some info ∧ info.initialization = some c1)) ∧
    (∀ d1 d2 : CommonSym, ∀ l : Nat, d2.linkName = d1.linkName →
      commonBlockIsInitialized d1 = none →
      commonBlockIsInitialized d2 = some l →
      ((mapCommonBlockAndCheckConflicts
          (mapCommonBlockAndCheckConflicts [] d1).1 d2).2.countP
            (fun d => d.isMultipleInit) = 0 ∧
       (d2.size = d1.size →
         (mapCommonBlockAndCheckConflicts
           (mapCommonBlockAndCheckConflicts [] d1).1 d2).2 = []) ∧
       (∃ info, cbLookup (mapCommonBlockAndCheckConflicts
           (mapCommonBlockAndCheckConflicts [] d1).1 d2).1 d1.linkName
             = some info ∧ info.initialization = some d2))) := by
  constructor
  · have hstep1 : mapCommonBlockAndCheckConflicts [] c1 =
        ([(c1.linkName, ⟨c1, some c1⟩)], []) := by
      simp [mapCommonBlockAndCheckConflicts, cbLookup, cbInsert, h1]
    rw [hstep1]
    have hid2 : ¬ c1.id = c2.id := hid
    have hstep2 : mapCommonBlockAndCheckConflicts
        [(c1.linkName, ⟨c1, some c1⟩)] c2 =
        ([(c1.linkName,
            ⟨if c2.size > c1.size then c2 else c1, some c1⟩)],
          CBDiag.multipleInit l2 (some l1) c2.name ::
            (if c2.size ≠ c1.size ∧ c2.name ≠ "" then
              [CBDiag.distinctSizes c2.size c1.size c2.name] else [])) := by
      simp [mapCommonBlockAndCheckConflicts, cbLookup, cbUpdate, hL, h1, h2,
        hid2]
    rw [hstep2]
    refine ⟨rfl, ?_, rfl, ?_⟩
    · by_cases hcond : c2.size ≠ c1.size ∧ c2.name ≠ ""
      · rw [if_pos hcond]
        rfl
      · rw [if_neg hcond]
        rfl
    · exact ⟨⟨if c2.size > c1.size then c2 else c1, some c1⟩,
        by simp [cbLookup], rfl⟩
  · intro d1 d2 l hdL hd1 hd2
    have hstep1 : mapCommonBlockAndCheckConflicts [] d1 =
        ([(d1.linkName, ⟨d1, none⟩)], []) := by
      simp [mapCommonBlockAndCheckConflicts, cbLookup, cbInsert, hd1]
    rw [hstep1]
    have hstep2 : mapCommonBlockAndCheckConflicts
        [(d1.linkName, ⟨d1, none⟩)] d2 =
        ([(d1.linkName,
            ⟨if d2.size > d1.size then d2 else d1, some d2⟩)],
          if d2.size ≠ d1.size ∧ d2.name ≠ "" then
            [CBDiag.distinctSizes d2.size d1.size d2.name] else []) := by
      simp [mapCommonBlockAndCheckConflicts, cbLookup, cbUpdate, hdL, hd1,
        hd2]
    rw [hstep2]
    refine ⟨?_, ?_, ?_⟩
    · by_cases hcond : d2.size ≠ d1.size ∧ d2.name ≠ ""
      · rw [if_pos hcond]
        rfl
      · rw [if_neg hcond]
        rfl
    · intro hsz
      have hcond : ¬ (d2.size ≠ d1.size ∧ d2.name ≠ "") :=
        fun hcontra => hcontra.1 hsz
      simp only [if_neg hcond]
    · exact ⟨⟨if d2.size > d1.size then d2 else d1, some d2⟩,
        by simp [cbLookup], rfl⟩

/-- Witness for C2: two distinct appearances of `/b/`, each with its own
initialized member; the second merge reports one multiple-initialization
error attaching the first initializer. -/
theorem multiple_initialization_reported_once_witness :
    (CommonSym.mk 2 "b" "b_" 8 [Member.mk 20 true] []).linkName =
      (CommonSym.mk 1 "b" "b_" 8 [Member.mk 10 true] []).linkName ∧
    (CommonSym.mk 1 "b" "b_" 8 [Member.mk 10 true] []).id ≠
      (CommonSym.mk 2 "b" "b_" 8 [Member.mk 20 true] []).id ∧
    commonBlockIsInitialized
      (CommonSym.mk 1 "b" "b_" 8 [Member.mk 10 true] []) = some 10 ∧
    commonBlockIsInitialized
      (CommonSym.mk 2 "b" "b_" 8 [Member.mk 20 true] []) = some 20 ∧
    (mapCommonBlockAndCheckConflicts
      (mapCommonBlockAndCheckConflicts []
        (CommonSym.mk 1 "b" "b_" 8 [Member.mk 10 true] [])).1
      (CommonSym.mk 2 "b" "b_" 8 [Member.mk 20 true] [])).2.countP
        (fun d => d.isMultipleInit) = 1 ∧
    (mapCommonBlockAndCheckConflicts
      (mapCommonBlockAndCheckConflicts []
        (CommonSym.mk 1 "b" "b_" 8 [Member.mk 10 true] [])).1
      (CommonSym.mk 2 "b" "b_" 8 [Member.mk 20 true] [])).2.head? =
      some (CBDiag.multipleInit 20 (some 10)
        (CommonSym.mk 2 "b" "b_" 8 [Member.mk 20 true] []).name) :=
  ⟨rfl, by decide, rfl, rfl,
    (multiple_initialization_reported_once
      (CommonSym.mk 1 "b" "b_" 8 [Member.mk 10 true] [])
      (CommonSym.mk 2 "b" "b_" 8 [Member.mk 20 true] [])
      10 20 rfl (by decide) rfl rfl).1.2.1,
    (multiple_initialization_reported_once
      (CommonSym.mk 1 "b" "b_" 8 [Member.mk 10 true] [])
      (CommonSym.mk 2 "b" "b_" 8 [Member.mk 20 true] [])
      10 20 rfl (by decide) rfl rfl).1.2.2.1⟩

/-- Ranges with equal start and size are equal. -/
theorem charBlock_eq {x y : CharBlock} (h1 : x.start = y.start)
    (h2 : x.size = y.size) : x = y := by
  cases x
  cases y
  cases h1
  cases h2
  rfl

/-- The comparator never relates a key to itself. -/
theorem cbLt_irrefl (x : CharBlock) : ¬ cbLt x x := by
  simp only [cbLt]
  omega

/-- The comparator is asymmetric. -/
theorem cbLt_asymm {x y : CharBlock} (h : cbLt x y) : ¬ cbLt y x := by
  simp only [cbLt] at *
  omega

/-- Transitivity through an incomparability: anything below `x` is below
everything not below `x`. -/
theorem cbLt_trans_not {q x y : CharBlock} (h1 : cbLt q x)
    (h2 : ¬ cbLt y x) : cbLt q y := by
  simp only [cbLt] at *
  omega

/-- A key strictly greater than the query cannot contain it. -/
theorem not_contains_of_cbLt {q k : CharBlock} (h : cbLt q k) :
    ¬ k.Contains q := by
  simp only [cbLt, CharBlock.Contains, CharBlock.endPos] at *
  omega

/-- Containment is reflexive. -/
theorem contains_refl (x : CharBlock) : x.Contains x :=
  ⟨Nat.le_refl _, Nat.le_refl _⟩

/-- On a correctly ordered index, every entry at or beyond the upper
bound of a query has a key strictly greater than the query. -/
theorem upperBound_lt {q : CharBlock} :
    ∀ {idx : ScopeIndex}, IndexSorted idx → ∀ {j : Nat} {e : CharBlock × Nat},
      upperBound idx q ≤ j → idx.get? j = some e → cbLt q e.1 := by
  intro idx
  induction idx with
  | nil =>
    intro _ j e _ hget
    simp [List.get?] at hget
  | cons a rest ih =>
    intro hs j e hub hget
    rw [IndexSorted, List.pairwise_cons] at hs
    by_cases hp : cbLt q a.1
    · cases j with
      | zero =>
        simp only [List.get?] at hget
        cases hget
        exact hp
      | succ n =>
        have he : e ∈ rest := List.get?_mem hget
        exact cbLt_trans_not hp (hs.1 e he)
    · have hub2 : upperBound (a :: rest) q = upperBound rest q + 1 := by
        simp [upperBound, List.takeWhile_cons, hp]
      cases j with
      | zero => omega
      | succ n =>
        simp only [List.get?] at hget
        exact ih hs.2 (by omega) hget

/-- The backward scan, when it finds a position, returns a containing
entry below its starting point with no containing entry above it. -/
theorem searchFrom_some {idx : ScopeIndex} {q : CharBlock} :
    ∀ {n i : Nat}, searchFrom idx q n = some i →
      i < n ∧ ∃ e, idx.get? i = some e ∧ e.1.Contains q ∧
        ∀ j, i < j → j < n → ∀ e2, idx.get? j = some e2 →
          ¬ e2.1.Contains q := by
  intro n
  induction n with
  | zero =>
    intro i h
    simp [searchFrom] at h
  | succ m ih =>
    intro i h
    cases hg : idx.get? m with
    | some e =>
      simp only [searchFrom, hg] at h
      by_cases hc : e.1.Contains q
      · rw [if_pos hc] at h
        cases h
        refine ⟨Nat.lt_succ_self _, e, hg, hc, ?_⟩
        intro j hj1 hj2 e2 _ _
        omega
      · rw [if_neg hc] at h
        obtain ⟨hi, e2, hg2, hc2, hno⟩ := ih h
        refine ⟨by omega, e2, hg2, hc2, ?_⟩
        intro j hj1 hj2 e3 hg3
        by_cases hjm : j = m
        · subst hjm
          rw [hg] at hg3
          cases hg3
          exact hc
        · exact hno j hj1 (by omega) e3 hg3
    | none =>
      simp only [searchFrom, hg] at h
      obtain ⟨hi, e2, hg2, hc2, hno⟩ := ih h
      refine ⟨by omega, e2, hg2, hc2, ?_⟩
      intro j hj1 hj2 e3 hg3
      by_cases hjm : j = m
      · subst hjm
        rw [hg] at hg3
        cases hg3
      · exact hno j hj1 (by omega) e3 hg3

/-- The backward scan fails only when no scanned entry contains the
query. -/
theorem searchFrom_none {idx : ScopeIndex} {q : CharBlock} :
    ∀ {n : Nat}, searchFrom idx q n = none →
      ∀ j, j < n → ∀ e, idx.get? j = some e → ¬ e.1.Contains q := by
  intro n
  induction n with
  | zero =>
    intro _ j hj
    omega
  | succ m ih =>
    intro h j hj e hg
    cases hgm : idx.get? m with
    | some em =>
      simp only [searchFrom, hgm] at h
      by_cases hc : em.1.Contains q
      · rw [if_pos hc] at h
        cases h
      · rw [if_neg hc] at h
        by_cases hjm : j = m
        · subst hjm
          rw [hgm] at hg
          cases hg
          exact hc
        · exact ih h j (by omega) e hg
    | none =>
      simp only [searchFrom, hgm] at h
      by_cases hjm : j = m
      · subst hjm
        rw [hgm] at hg
        cases hg
      · exact ih h j (by omega) e hg

/-- The backward scan succeeds whenever a scanned entry contains the
query. -/
theorem searchFrom_isSome {idx : ScopeIndex} {q : CharBlock} :
    ∀ {n j : Nat} {e : CharBlock × Nat}, j < n → idx.get? j = some e →
      e.1.Contains q → (searchFrom idx q n).isSome := by
  intro n
  induction n with
  | zero =>
    intro j e hj
    omega
  | succ m ih =>
    intro j e hj hg hc
    cases hgm : idx.get? m with
    | some em =>
      simp only [searchFrom, hgm]
      by_cases hcm : em.1.Contains q
      · rw [if_pos hcm]
        rfl
      · rw [if_neg hcm]
        by_cases hjm : j = m
        · subst hjm
          rw [hgm] at hg
          cases hg
          exact absurd hc hcm
        · exact ih (by omega) hg hc
    | none =>
      simp only [searchFrom, hgm]
      by_cases hjm : j = m
      · subst hjm
        rw [hgm] at hg
        cases hg
      · exact ih (by omega) hg hc

/-- Whatever `FindScope` returns is a registered entry whose key contains
the query. -/
theorem findScope_contains {idx : ScopeIndex} {q : CharBlock}
    {e : CharBlock × Nat} (h : findScope idx q = some e) :
    e ∈ idx ∧ e.1.Contains q := by
  unfold findScope searchScopeIndex at h
  cases hsf : searchFrom idx q (upperBound idx q) with
  | none =>
    rw [hsf] at h
    cases h
  | some i =>
    rw [hsf] at h
    have h2 : idx.get? i = some e := h
    obtain ⟨_, e2, hg2, hc2, _⟩ := searchFrom_some hsf
    rw [hg2] at h2
    cases h2
    exact ⟨List.get?_mem hg2, hc2⟩

/-- On a correctly ordered index, the entry `FindScope` returns sits at
the greatest index-position among the entries containing the query. -/
theorem findScope_some_spec {idx : ScopeIndex} {q : CharBlock}
    (hs : IndexSorted idx) {e : CharBlock × Nat}
    (h : findScope idx q = some e) :
    ∃ i, idx.get? i = some e ∧ e.1.Contains q ∧
      ∀ j e2, idx.get? j = some e2 → e2.1.Contains q → j ≤ i := by
  unfold findScope searchScopeIndex at h
  cases hsf : searchFrom idx q (upperBound idx q) with
  | none =>
    rw [hsf] at h
    cases h
  | some i =>
    rw [hsf] at h
    have h2 : idx.get? i = some e := h
    obtain ⟨hiub, e2, hg2, hc2, hno⟩ := searchFrom_some hsf
    rw [hg2] at h2
    cases h2
    refine ⟨i, hg2, hc2, ?_⟩
    intro j e3 hg3 hc3
    by_contra hij
    push_neg at hij
    by_cases hjub : j < upperBound idx q
    · exact hno j hij hjub e3 hg3 hc3
    · exact not_contains_of_cbLt (upperBound_lt hs (by omega) hg3) hc3

/-- On a correctly ordered index, `FindScope` aborts exactly when no
registered key contains the query. -/
theorem findScope_none_iff {idx : ScopeIndex} {q : CharBlock}
    (hs : IndexSorted idx) :
    findScope idx q = none ↔ ∀ e ∈ idx, ¬ e.1.Contains q := by
  constructor
  · intro h e he hc
    obtain ⟨j, hj⟩ := List.mem_iff_get?.1 he
    unfold findScope searchScopeIndex at h
    cases hsf : searchFrom idx q (upperBound idx q) with
    | none =>
      by_cases hjub : j < upperBound idx q
      · exact searchFrom_none hsf j hjub e hj hc
      · exact not_contains_of_cbLt (upperBound_lt hs (by omega) hj) hc
    | some i =>
      rw [hsf] at h
      have h2 : idx.get? i = none := h
      obtain ⟨_, e2, hg2, _, _⟩ := searchFrom_some hsf
      rw [hg2] at h2
      cases h2
  · intro h
    unfold findScope searchScopeIndex
    cases hsf : searchFrom idx q (upperBound idx q) with
    | none => rfl
    | some i =>
      obtain ⟨_, e2, hg2, hc2, _⟩ := searchFrom_some hsf
      exact absurd hc2 (h e2 (List.get?_mem hg2))

/-- On a correctly ordered index, `FindScope` succeeds whenever some
registered key contains the query. -/
theorem findScope_isSome {idx : ScopeIndex} {q : CharBlock}
    (hs : IndexSorted idx) (h : ∃ e ∈ idx, e.1.Contains q) :
    ∃ e, findScope idx q = some e := by
  cases hf : findScope idx q with
  | none =>
    obtain ⟨e, he, hc⟩ := h
    exact absurd hc ((findScope_none_iff hs).1 hf e he)
  | some e => exact ⟨e, rfl⟩

/-- On a correctly ordered index of pairwise nested-or-disjoint ranges, a
`FindScope` result at a nonempty query is innermost: every registered
range containing the query contains the returned range. -/
theorem findScope_innermost {idx : ScopeIndex} {q : CharBlock}
    (hs : IndexSorted idx)
    (hlam : ∀ e1 ∈ idx, ∀ e2 ∈ idx, e1.1.Contains e2.1 ∨ e2.1.Contains e1.1 ∨
      e1.1.endPos ≤ e2.1.start ∨ e2.1.endPos ≤ e1.1.start)
    (hq : 0 < q.size) {e : CharBlock × Nat}
    (hf : findScope idx q = some e) :
    ∀ e2 ∈ idx, e2.1.Contains q → e2.1.Contains e.1 := by
  obtain ⟨hmem, hc⟩ := findScope_contains hf
  obtain ⟨i, hgi, _, hmax⟩ := findScope_some_spec hs hf
  intro e2 he2 hc2
  obtain ⟨j, hgj⟩ := List.mem_iff_get?.1 he2
  have hji : j ≤ i := hmax j e2 hgj hc2
  rcases hlam e2 he2 e hmem with hcon | hcon | hdis | hdis
  · exact hcon
  · -- the other containing entry is inside the returned one: its range
    -- must coincide with the returned range, else the ordering is broken
    by_cases hij : j = i
    · subst hij
      rw [hgi] at hgj
      cases hgj
      exact contains_refl _
    · have hlt : j < i := by omega
      have hpair := (List.pairwise_iff_get.1 hs)
      obtain ⟨hjlen, hgetj⟩ := List.get?_eq_some.1 hgj
      obtain ⟨hilen, hgeti⟩ := List.get?_eq_some.1 hgi
      have hrel := hpair ⟨j, hjlen⟩ ⟨i, hilen⟩ hlt
      rw [hgetj, hgeti] at hrel
      -- hrel : ¬ cbLt e.1 e2.1 ; hcon : e.1.Contains e2.1
      have key : e2.1 = e.1 ∨ cbLt e.1 e2.1 := by
        rcases hcon with ⟨hb, he⟩
        rcases Nat.lt_or_ge e.1.start e2.1.start with h1 | h1
        · exact Or.inr (Or.inl h1)
        · have hbs : e.1.start = e2.1.start := Nat.le_antisymm hb h1
          have hsz : e2.1.size ≤ e.1.size := by
            simp only [CharBlock.endPos] at he
            omega
          rcases Nat.lt_or_ge e2.1.size e.1.size with h2 | h2
          · exact Or.inr (Or.inr ⟨hbs, h2⟩)
          · have hz : e2.1.size = e.1.size := Nat.le_antisymm hsz h2
            exact Or.inl (charBlock_eq hbs.symm hz)
      rcases key with heq | hlt2
      · rw [heq]
        exact contains_refl _
      · exact absurd hlt2 hrel
  · -- disjoint ranges cannot both contain a nonempty query
    exfalso
    rcases hc with ⟨hb1, he1⟩
    rcases hc2 with ⟨hb2, he2⟩
    simp only [CharBlock.endPos] at he1 he2 hdis
    omega
  · exfalso
    rcases hc with ⟨hb1, he1⟩
    rcases hc2 with ⟨hb2, he2⟩
    simp only [CharBlock.endPos] at he1 he2 hdis
    omega

/-- In the region where the C++ behavior is defined — a nonempty index
whose upper bound for the query lies past its first entry — the full
model finds an entry exactly when the defined-behavior scan does. -/
theorem findScopeFull_found_iff {idx : ScopeIndex} {q : CharBlock}
    (hne : idx ≠ []) (hub : 0 < upperBound idx q) (e : CharBlock × Nat) :
    findScopeFull idx q = FindScopeResult.found e ↔
      findScope idx q = some e := by
  have hemp : ¬ (idx.isEmpty = true) := by
    cases idx with
    | nil => exact absurd rfl hne
    | cons a l => simp
  unfold findScopeFull findScope searchScopeIndex
  rw [if_neg hemp, if_neg (by omega : ¬ upperBound idx q = 0)]
  cases hsf : searchFrom idx q (upperBound idx q) with
  | none => simp
  | some i =>
    cases hg : idx.get? i with
    | none =>
      rw [List.get?_eq_getElem?] at hg
      simp [hg]
    | some e2 =>
      rw [List.get?_eq_getElem?] at hg
      simp [hg]

/-- Counterexample to C3: with every registered key greater than the
query — a nonempty index whose upper bound for the query is `begin()` —
the do-while of `SearchScopeIndex` decrements `begin()` before any check,
which is undefined behavior, so `FindScope` is not guaranteed to abort
fatally even though no registered range contains the position. -/
theorem findScope_decrements_begin_counterexample :
    IndexSorted [(CharBlock.mk 5 5, 1)] ∧
    0 < (CharBlock.mk 0 1).size ∧
    (∀ e ∈ ([(CharBlock.mk 5 5, 1)] : ScopeIndex),
      ¬ e.1.Contains (CharBlock.mk 0 1)) ∧
    findScopeFull [(CharBlock.mk 5 5, 1)] (CharBlock.mk 0 1) =
      FindScopeResult.undefinedBehavior ∧
    findScopeFull [(CharBlock.mk 5 5, 1)] (CharBlock.mk 0 1) ≠
      FindScopeResult.fatal :=
  ⟨by decide, by decide, by decide, by decide, by decide⟩

/-- C3 amended: on a correctly ordered index of pairwise
nested-or-disjoint ranges and a nonempty query position, `FindScope`
returns the innermost registered entry containing the position whenever
one exists; when no registered range contains the position it aborts
fatally if the index is empty or the backward scan starts past at least
one key, but when every key of a nonempty index is greater than the query
the do-while decrements `begin()` — undefined behavior instead of a
guaranteed fatal abort. -/
theorem findScopeFull_innermost_fatal_or_ub (idx : ScopeIndex)
    (q : CharBlock) (hs : IndexSorted idx)
    (hlam : ∀ e1 ∈ idx, ∀ e2 ∈ idx, e1.1.Contains e2.1 ∨ e2.1.Contains e1.1 ∨
      e1.1.endPos ≤ e2.1.start ∨ e2.1.endPos ≤ e1.1.start)
    (hq : 0 < q.size) :
    ((∀ e ∈ idx, ¬ e.1.Contains q) →
      ((idx = [] ∨ 0 < upperBound idx q) →
        findScopeFull idx q = FindScopeResult.fatal) ∧
      (idx ≠ [] → upperBound idx q = 0 →
        findScopeFull idx q = FindScopeResult.undefinedBehavior)) ∧
    (∀ e, findScopeFull idx q = FindScopeResult.found e →
      e ∈ idx ∧ e.1.Contains q ∧
        ∀ e2 ∈ idx, e2.1.Contains q → e2.1.Contains e.1) ∧
    ((∃ e ∈ idx, e.1.Contains q) →
      ∃ e, findScopeFull idx q = FindScopeResult.found e) := by
  refine ⟨?_, ?_, ?_⟩
  · intro hnone
    constructor
    · rintro (rfl | hub)
      · rfl
      · have hne : idx ≠ [] := by
          intro h
          subst h
          simp [upperBound] at hub
        have hemp : ¬ (idx.isEmpty = true) := by
          cases idx with
          | nil => exact absurd rfl hne
          | cons a l => simp
        have hsf : searchFrom idx q (upperBound idx q) = none := by
          cases hsf2 : searchFrom idx q (upperBound idx q) with
          | none => rfl
          | some i =>
            obtain ⟨_, e2, hg2, hc2, _⟩ := searchFrom_some hsf2
            exact absurd hc2 (hnone e2 (List.get?_mem hg2))
        unfold findScopeFull
        rw [if_neg hemp, if_neg (by omega : ¬ upperBound idx q = 0)]
        simp only [hsf]
    · intro hne hub
      have hemp : ¬ (idx.isEmpty = true) := by
        cases idx with
        | nil => exact absurd rfl hne
        | cons a l => simp
      unfold findScopeFull
      rw [if_neg hemp, if_pos hub]
  · intro e hf
    unfold findScopeFull at hf
    by_cases hemp : idx.isEmpty = true
    · rw [if_pos hemp] at hf
      simp at hf
    · rw [if_neg hemp] at hf
      by_cases hub : upperBound idx q = 0
      · rw [if_pos hub] at hf
        simp at hf
      · rw [if_neg hub] at hf
        cases hsf : searchFrom idx q (upperBound idx q) with
        | none =>
          simp only [hsf] at hf
          simp at hf
        | some i =>
          simp only [hsf] at hf
          cases hg : idx.get? i with
          | none =>
            simp only [hg] at hf
            simp at hf
          | some e2 =>
            simp only [hg] at hf
            have he2 : e2 = e := by
              injection hf
            subst he2
            have hfs : findScope idx q = some e2 := by
              unfold findScope searchScopeIndex
              rw [hsf]
              exact hg
            exact ⟨(findScope_contains hfs).1, (findScope_contains hfs).2,
              findScope_innermost hs hlam hq hfs⟩
  · intro hex
    obtain ⟨e0, he0, hc0⟩ := hex
    have hne : idx ≠ [] := by
      intro h
      subst h
      simp at he0
    have hub : 0 < upperBound idx q := by
      obtain ⟨j, hgj⟩ := List.mem_iff_get?.1 he0
      by_contra hcontra
      push_neg at hcontra
      exact not_contains_of_cbLt (upperBound_lt hs (by omega) hgj) hc0
    obtain ⟨e, hf⟩ := findScope_isSome hs ⟨e0, he0, hc0⟩
    exact ⟨e, (findScopeFull_found_iff hne hub e).2 hf⟩

/-- Witness for C3 amended: a two-entry index of nested ranges; the query
inside the inner range resolves to the inner scope. -/
theorem findScopeFull_innermost_fatal_or_ub_witness :
    IndexSorted [(CharBlock.mk 0 10, 1), (CharBlock.mk 2 3, 2)] ∧
    (∀ e1 ∈ ([(CharBlock.mk 0 10, 1), (CharBlock.mk 2 3, 2)] : ScopeIndex),
      ∀ e2 ∈ ([(CharBlock.mk 0 10, 1), (CharBlock.mk 2 3, 2)] : ScopeIndex),
      e1.1.Contains e2.1 ∨ e2.1.Contains e1.1 ∨
        e1.1.endPos ≤ e2.1.start ∨ e2.1.endPos ≤ e1.1.start) ∧
    0 < (CharBlock.mk 3 1).size ∧
    (∀ e, findScopeFull [(CharBlock.mk 0 10, 1), (CharBlock.mk 2 3, 2)]
        (CharBlock.mk 3 1) = FindScopeResult.found e →
      e ∈ ([(CharBlock.mk 0 10, 1), (CharBlock.mk 2 3, 2)] : ScopeIndex) ∧
      e.1.Contains (CharBlock.mk 3 1) ∧
        ∀ e2 ∈ ([(CharBlock.mk 0 10, 1), (CharBlock.mk 2 3, 2)] : ScopeIndex),
          e2.1.Contains (CharBlock.mk 3 1) → e2.1.Contains e.1) ∧
    findScopeFull [(CharBlock.mk 0 10, 1), (CharBlock.mk 2 3, 2)]
      (CharBlock.mk 3 1) = FindScopeResult.found (CharBlock.mk 2 3, 2) :=
  ⟨by decide, by decide, by decide,
    (findScopeFull_innermost_fatal_or_ub
      [(CharBlock.mk 0 10, 1), (CharBlock.mk 2 3, 2)] (CharBlock.mk 3 1)
      (by decide) (by decide) (by decide)).2.1,
    by decide⟩

/-- Ordered insertion adds exactly the new entry, up to order. -/
theorem insertEntry_perm (idx : ScopeIndex) (k : CharBlock) (v : Nat) :
    (insertEntry idx k v).Perm ((k, v) :: idx) := by
  induction idx with
  | nil => exact List.Perm.refl _
  | cons e rest ih =>
    simp only [insertEntry]
    by_cases h : cbLt k e.1
    · rw [if_pos h]
    · rw [if_neg h]
      exact (ih.cons e).trans (List.Perm.swap (k, v) e rest)

/-- Ordered insertion preserves the index ordering invariant. -/
theorem insertEntry_sorted {idx : ScopeIndex} (hs : IndexSorted idx)
    (k : CharBlock) (v : Nat) : IndexSorted (insertEntry idx k v) := by
  induction idx with
  | nil =>
    simp [insertEntry, IndexSorted]
  | cons e rest ih =>
    rw [IndexSorted, List.pairwise_cons] at hs
    simp only [insertEntry]
    by_cases h : cbLt k e.1
    · rw [if_pos h]
      rw [IndexSorted, List.pairwise_cons]
      refine ⟨?_, ?_⟩
      · intro b hb
        rcases List.mem_cons.1 hb with rfl | hb2
        · exact cbLt_asymm h
        · exact fun hlt => cbLt_asymm (cbLt_trans_not h (hs.1 b hb2)) hlt
      · rw [IndexSorted] at *
        exact List.pairwise_cons.2 hs
    · rw [if_neg h]
      rw [IndexSorted, List.pairwise_cons]
      refine ⟨?_, ih hs.2⟩
      intro b hb
      rcases List.mem_cons.1 ((insertEntry_perm rest k v).mem_iff.1 hb)
        with rfl | hb2
      · exact h
      · exact hs.1 b hb2

/-- Every element of `eraseIdx` sits in the original list at a position
other than the erased one. -/
theorem mem_eraseIdx_get? {idx : ScopeIndex} {j : Nat} {e : CharBlock × Nat}
    (h : e ∈ idx.eraseIdx j) : ∃ j2, j2 ≠ j ∧ idx.get? j2 = some e := by
  rw [List.eraseIdx_eq_take_drop_succ] at h
  rcases List.mem_append.1 h with h2 | h2
  · obtain ⟨k, hk⟩ := List.mem_iff_get?.1 h2
    have hklen : k < (idx.take j).length := (List.get?_eq_some.1 hk).1
    have hkj : k < j := by
      rw [List.length_take] at hklen
      omega
    refine ⟨k, by omega, ?_⟩
    rw [← List.get?_take hkj]
    exact hk
  · obtain ⟨k, hk⟩ := List.mem_iff_get?.1 h2
    rw [List.get?_drop] at hk
    exact ⟨j + 1 + k, by omega, hk⟩

/-- The backward walk of `UpdateScopeIndex` returns the unique position
holding the scope, when started at or above it. -/
theorem findBackValue_eq {idx : ScopeIndex} {s : Nat} {j0 : Nat}
    {e0 : CharBlock × Nat} (hj0 : idx.get? j0 = some e0) (hv : e0.2 = s)
    (huniq : ∀ j e, idx.get? j = some e → e.2 = s → j = j0) :
    ∀ n, j0 ≤ n → n < idx.length → findBackValue idx s n = some j0 := by
  intro n
  induction n with
  | zero =>
    intro hle hlen
    have hj00 : j0 = 0 := by omega
    subst hj00
    simp only [findBackValue, hj0, hv, if_pos]
  | succ m ih =>
    intro hle hlen
    cases hg : idx.get? (m + 1) with
    | some e =>
      simp only [findBackValue, hg]
      by_cases he : e.2 = s
      · rw [if_pos he]
        rw [huniq (m + 1) e hg he]
      · rw [if_neg he]
        have hne : j0 ≠ m + 1 := by
          intro hcontra
          subst hcontra
          rw [hj0] at hg
          cases hg
          exact he hv
        exact ih (by omega) (by omega)
    | none =>
      have := List.get?_eq_none.1 hg
      omega

/-- C4: extending a uniquely-registered scope's range from `[a,b)` to a
larger range `[a,c)` through `UpdateScopeIndex` removes the old entry and
inserts one re-keyed entry, after which a query contained in the new
range (and in no other scope's range) resolves to that same scope, and
any `FindScope` result always has a range containing the query — never a
sibling whose range does not contain it. -/
theorem updateScopeIndex_rekeys_and_resolves (idx : ScopeIndex) (s : Nat)
    (oldR newR : CharBlock) (j0 : Nat)
    (hs : IndexSorted idx)
    (hj0 : idx.get? j0 = some (oldR, s))
    (huniq : ∀ j, j < idx.length →
      ((idx.get? j).map (fun e => e.2)) = some s → j = j0)
    (hosz : 0 < oldR.size)
    (hstart : newR.start = oldR.start)
    (hgrow : oldR.size < newR.size) :
    ∃ idx2, updateScopeIndex idx s oldR newR = some idx2 ∧
      IndexSorted idx2 ∧
      (newR, s) ∈ idx2 ∧
      (∀ e ∈ idx2, e.2 = s → e = (newR, s)) ∧
      (∀ q e, findScope idx2 q = some e → e.1.Contains q) ∧
      (∀ q, newR.Contains q →
        (∀ e ∈ idx, e.2 ≠ s → ¬ e.1.Contains q) →
        findScope idx2 q = some (newR, s)) := by
  have huniq2 : ∀ j e, idx.get? j = some e → e.2 = s → j = j0 := by
    intro j e hg he
    have hlen : j < idx.length := (List.get?_eq_some.1 hg).1
    refine huniq j hlen ?_
    rw [hg]
    exact congrArg some he
  -- the update takes the re-keying path
  have hnc : ¬ oldR.Contains newR := by
    simp only [CharBlock.Contains, CharBlock.endPos, hstart]
    omega
  -- the search by the scope's current range succeeds
  have hcont : oldR.Contains oldR := contains_refl oldR
  have hj0ub : j0 < upperBound idx oldR := by
    by_contra hcontra
    push_neg at hcontra
    exact not_contains_of_cbLt (upperBound_lt hs hcontra hj0) hcont
  have hse : (searchFrom idx oldR (upperBound idx oldR)).isSome :=
    searchFrom_isSome hj0ub hj0 hcont
  obtain ⟨i, hi⟩ := Option.isSome_iff_exists.1 hse
  obtain ⟨hiub, ei, hgi, hci, hno⟩ := searchFrom_some hi
  have hj0i : j0 ≤ i := by
    by_contra hcontra
    push_neg at hcontra
    exact hno j0 hcontra hj0ub (oldR, s) hj0 hcont
  have hilen : i < idx.length := (List.get?_eq_some.1 hgi).1
  have hfb : findBackValue idx s i = some j0 :=
    findBackValue_eq hj0 rfl huniq2 i hj0i hilen
  have hupd : updateScopeIndex idx s oldR newR =
      some (insertEntry (idx.eraseIdx j0) newR s) := by
    unfold updateScopeIndex
    rw [if_neg (by omega : ¬ oldR.size = 0), if_neg hnc]
    unfold searchScopeIndex
    simp only [hi, hfb]
  -- the erased remainder holds no entry for the scope
  have herase : ∀ e ∈ idx.eraseIdx j0, e.2 ≠ s := by
    intro e he hv
    obtain ⟨j2, hj2ne, hj2⟩ := mem_eraseIdx_get? he
    exact hj2ne (huniq2 j2 e hj2 hv)
  have hsorted2 : IndexSorted (insertEntry (idx.eraseIdx j0) newR s) :=
    insertEntry_sorted
      (List.Pairwise.sublist (List.eraseIdx_sublist idx j0) hs) newR s
  have hmem2 : (newR, s) ∈ insertEntry (idx.eraseIdx j0) newR s :=
    (insertEntry_perm _ newR s).mem_iff.2 (List.mem_cons_self _ _)
  have hval : ∀ e ∈ insertEntry (idx.eraseIdx j0) newR s, e.2 = s →
      e = (newR, s) := by
    intro e he hv
    rcases List.mem_cons.1 ((insertEntry_perm _ newR s).mem_iff.1 he)
        with rfl | he2
    · rfl
    · exact absurd hv (herase e he2)
  refine ⟨insertEntry (idx.eraseIdx j0) newR s, hupd, hsorted2, hmem2,
    hval, ?_, ?_⟩
  · intro q e hf
    exact (findScope_contains hf).2
  · intro q hqc hnone
    obtain ⟨e, hf⟩ := findScope_isSome hsorted2 ⟨(newR, s), hmem2, hqc⟩
    obtain ⟨hemem, hec⟩ := findScope_contains hf
    rcases List.mem_cons.1 ((insertEntry_perm _ newR s).mem_iff.1 hemem)
        with rfl | he2
    · exact hf
    · exfalso
      have hv : e.2 ≠ s := herase e he2
      have hein : e ∈ idx :=
        List.Sublist.mem he2 (List.eraseIdx_sublist idx j0)
      exact hnone e hein hv hec

/-- Witness for C4: scope 1 registered at `[0,5)` next to an inner scope
at `[1,3)`; after extension to `[0,9)` a query at position 6 resolves to
scope 1. -/
theorem updateScopeIndex_rekeys_and_resolves_witness :
    IndexSorted [(CharBlock.mk 0 5, 1), (CharBlock.mk 1 2, 2)] ∧
    ([(CharBlock.mk 0 5, 1), (CharBlock.mk 1 2, 2)] :
      ScopeIndex).get? 0 = some (CharBlock.mk 0 5, 1) ∧
    (∀ j, j < ([(CharBlock.mk 0 5, 1), (CharBlock.mk 1 2, 2)] :
        ScopeIndex).length →
      ((([(CharBlock.mk 0 5, 1), (CharBlock.mk 1 2, 2)] :
        ScopeIndex).get? j).map (fun e => e.2)) = some 1 → j = 0) ∧
    0 < (CharBlock.mk 0 5).size ∧
    (CharBlock.mk 0 9).start = (CharBlock.mk 0 5).start ∧
    (CharBlock.mk 0 5).size < (CharBlock.mk 0 9).size ∧
    (∃ idx2, updateScopeIndex [(CharBlock.mk 0 5, 1), (CharBlock.mk 1 2, 2)]
        1 (CharBlock.mk 0 5) (CharBlock.mk 0 9) = some idx2 ∧
      IndexSorted idx2 ∧
      (CharBlock.mk 0 9, 1) ∈ idx2 ∧
      (∀ e ∈ idx2, e.2 = 1 → e = (CharBlock.mk 0 9, 1)) ∧
      (∀ q e, findScope idx2 q = some e → e.1.Contains q) ∧
      (∀ q, (CharBlock.mk 0 9).Contains q →
        (∀ e ∈ ([(CharBlock.mk 0 5, 1), (CharBlock.mk 1 2, 2)] :
          ScopeIndex), e.2 ≠ 1 → ¬ e.1.Contains q) →
        findScope idx2 q = some (CharBlock.mk 0 9, 1))) :=
  ⟨by decide, by decide, by decide, by decide, by decide, by decide,
    updateScopeIndex_rekeys_and_resolves
      [(CharBlock.mk 0 5, 1), (CharBlock.mk 1 2, 2)] 1
      (CharBlock.mk 0 5) (CharBlock.mk 0 9) 0
      (by decide) (by decide) (by decide) (by decide) (by decide)
      (by decide)⟩

mutual
/-- A statement-free subtree emits no current-location updates. -/
theorem walkTree_noSetLoc (mods : List Nat) (t : PTree)
    (h : stmtFreeT t = true) :
    ∀ e ∈ walkTree mods t, e.isSetLoc = false := by
  cases t with
  | stmt span kids => simp [stmtFreeT] at h
  | construct kids =>
    intro e he
    simp only [walkTree] at he
    rcases List.mem_cons.1 he with rfl | he
    · rfl
    rcases List.mem_append.1 he with he | he
    · rcases List.mem_append.1 he with he | he
      · rcases List.mem_append.1 he with he | he
        · obtain ⟨m, _, rfl⟩ := List.mem_map.1 he
          rfl
        · exact walkKids_noSetLoc mods kids h e he
      · obtain ⟨m, _, rfl⟩ := List.mem_map.1 he
        rfl
    · rw [List.mem_singleton] at he
      subst he
      rfl
  | plain kids =>
    intro e he
    simp only [walkTree] at he
    rcases List.mem_append.1 he with he | he
    · rcases List.mem_append.1 he with he | he
      · obtain ⟨m, _, rfl⟩ := List.mem_map.1 he
        rfl
      · exact walkKids_noSetLoc mods kids h e he
    · obtain ⟨m, _, rfl⟩ := List.mem_map.1 he
      rfl
/-- A statement-free list of subtrees emits no current-location
updates. -/
theorem walkKids_noSetLoc (mods : List Nat) (ts : List PTree)
    (h : stmtFreeL ts = true) :
    ∀ e ∈ walkKids mods ts, e.isSetLoc = false := by
  cases ts with
  | nil =>
    intro e he
    simp [walkKids] at he
  | cons t rest =>
    intro e he
    have hh : stmtFreeT t = true ∧ stmtFreeL rest = true := by
      simpa [stmtFreeL, Bool.and_eq_true] using h
    simp only [walkKids] at he
    rcases List.mem_append.1 he with he | he
    · exact walkTree_noSetLoc mods t hh.1 e he
    · exact walkKids_noSetLoc mods rest hh.2 e he
end

/-- The location state threads through appended event lists. -/
theorem locAfter_append (l : Option Nat) (xs ys : List Ev) :
    locAfter l (xs ++ ys) = locAfter (locAfter l xs) ys := by
  induction xs generalizing l with
  | nil => rfl
  | cons e rest ih =>
    simp only [List.cons_append, locAfter]
    exact ih _

/-- Events carrying no location update leave the current location
unchanged. -/
theorem locAfter_no_setLoc {l : Option Nat} :
    ∀ evs : List Ev, (∀ e ∈ evs, e.isSetLoc = false) → locAfter l evs = l := by
  intro evs
  induction evs with
  | nil => intro _; rfl
  | cons e rest ih =>
    intro h
    cases e with
    | setLoc l2 =>
      have := h _ (List.mem_cons_self _ _)
      simp [Ev.isSetLoc] at this
    | enter m =>
      simp only [locAfter]
      exact ih fun e2 h2 => h e2 (List.mem_cons_of_mem _ h2)
    | leave m =>
      simp only [locAfter]
      exact ih fun e2 h2 => h e2 (List.mem_cons_of_mem _ h2)
    | pushConstruct =>
      simp only [locAfter]
      exact ih fun e2 h2 => h e2 (List.mem_cons_of_mem _ h2)
    | popConstruct =>
      simp only [locAfter]
      exact ih fun e2 h2 => h e2 (List.mem_cons_of_mem _ h2)


/-- Counterexample to C6: a statement node containing a nested statement
node — as an `IfStmt` or `ForallStmt` holds a `parser::UnlabeledStatement`,
whose `Post` (lines 112-115) resets the current location to none — leaves
the current location null when the outer statement's Leave handlers run,
so the location does not remain non-null throughout the handlers. -/
theorem composed_statement_traversal_counterexample :
    (walkTree [0, 1] (PTree.stmt 7 [PTree.stmt 9 []])).get? 9 =
      some (Ev.leave 0) ∧
    (walkTree [0, 1] (PTree.stmt 7 [PTree.stmt 9 []])).get? 10 =
      some (Ev.leave 1) ∧
    locAfter none
      ((walkTree [0, 1] (PTree.stmt 7 [PTree.stmt 9 []])).take 9) =
      none :=
  ⟨by decide, by decide, by decide⟩

/-- C6 amended: for a statement node none of whose descendants is itself
a statement node, visited by a composed traversal with modules `[A, B]`,
the current location is set to the statement's span before A's Enter
runs, A's and B's Enter handlers run in module order before either Leave
handler, the location stays that span throughout all handler events, and
it is reset to none immediately after B's Leave returns.  (A nested
statement's Post resets the location to none before the outer Leave
handlers run, so the non-null-throughout clause holds only for
statements without nested statement nodes.) -/
theorem composed_statement_traversal (a b span : Nat) (kids : List PTree)
    (hfree : stmtFreeL kids = true) :
    let trace := walkTree [a, b] (PTree.stmt span kids)
    trace.get? 0 = some (Ev.setLoc (some span)) ∧
    trace.get? 1 = some (Ev.enter a) ∧
    trace.get? 2 = some (Ev.enter b) ∧
    trace.get? (trace.length - 3) = some (Ev.leave a) ∧
    trace.get? (trace.length - 2) = some (Ev.leave b) ∧
    trace.get? (trace.length - 1) = some (Ev.setLoc none) ∧
    2 < trace.length - 3 ∧
    (∀ k, k < trace.length - 1 → 1 ≤ k →
      locAfter none (trace.take k) = some span) ∧
    locAfter none trace = none := by
  intro trace
  have htrace : trace = Ev.setLoc (some span) :: Ev.enter a :: Ev.enter b ::
      (walkKids [a, b] kids ++
        [Ev.leave a, Ev.leave b, Ev.setLoc none]) := by
    show walkTree [a, b] (PTree.stmt span kids) = _
    simp [walkTree, List.append_assoc]
  have hlen : trace.length = (walkKids [a, b] kids).length + 6 := by
    rw [htrace]
    simp [List.length_append]
  have hsplit : Ev.enter a :: Ev.enter b ::
      (walkKids [a, b] kids ++ [Ev.leave a, Ev.leave b, Ev.setLoc none]) =
      (Ev.enter a :: Ev.enter b ::
        (walkKids [a, b] kids ++ [Ev.leave a, Ev.leave b])) ++
        [Ev.setLoc none] := by
    simp [List.append_assoc]
  have hblen : (Ev.enter a :: Ev.enter b ::
      (walkKids [a, b] kids ++ [Ev.leave a, Ev.leave b])).length =
      (walkKids [a, b] kids).length + 4 := by
    simp [List.length_append]
  refine ⟨?_, ?_, ?_, ?_, ?_, ?_, ?_, ?_, ?_⟩
  · rw [htrace]; rfl
  · rw [htrace]; rfl
  · rw [htrace]; rfl
  · have e3 : trace.length - 3 = (walkKids [a, b] kids).length + 3 := by
      omega
    rw [e3, htrace]
    show (walkKids [a, b] kids ++
      [Ev.leave a, Ev.leave b, Ev.setLoc none]).get?
        (walkKids [a, b] kids).length = some (Ev.leave a)
    rw [List.get?_append_right (Nat.le_refl _)]
    simp
  · have e4 : trace.length - 2 = (walkKids [a, b] kids).length + 4 := by
      omega
    rw [e4, htrace]
    show (walkKids [a, b] kids ++
      [Ev.leave a, Ev.leave b, Ev.setLoc none]).get?
        ((walkKids [a, b] kids).length + 1) = some (Ev.leave b)
    rw [List.get?_append_right (by omega)]
    have e5 : (walkKids [a, b] kids).length + 1 -
        (walkKids [a, b] kids).length = 1 := by omega
    rw [e5]
    rfl
  · have e6 : trace.length - 1 = (walkKids [a, b] kids).length + 5 := by
      omega
    rw [e6, htrace]
    show (walkKids [a, b] kids ++
      [Ev.leave a, Ev.leave b, Ev.setLoc none]).get?
        ((walkKids [a, b] kids).length + 2) = some (Ev.setLoc none)
    rw [List.get?_append_right (by omega)]
    have e7 : (walkKids [a, b] kids).length + 2 -
        (walkKids [a, b] kids).length = 2 := by omega
    rw [e7]
    rfl
  · omega
  · intro k hk h1
    obtain ⟨k2, rfl⟩ : ∃ k2, k = k2 + 1 := ⟨k - 1, by omega⟩
    rw [htrace, List.take_succ_cons]
    show locAfter (some span) ((Ev.enter a :: Ev.enter b ::
      (walkKids [a, b] kids ++
        [Ev.leave a, Ev.leave b, Ev.setLoc none])).take k2) = some span
    apply locAfter_no_setLoc
    intro e he
    obtain ⟨pos, hpos⟩ := List.mem_iff_get?.1 he
    have hposlt : pos < k2 := by
      have h2 := (List.get?_eq_some.1 hpos).1
      rw [List.length_take] at h2
      omega
    rw [List.get?_take hposlt] at hpos
    rw [hsplit] at hpos
    rw [List.get?_append (by rw [hblen]; omega)] at hpos
    have hein := List.get?_mem hpos
    rcases List.mem_cons.1 hein with rfl | hein
    · rfl
    rcases List.mem_cons.1 hein with rfl | hein
    · rfl
    rcases List.mem_append.1 hein with hein | hein
    · exact walkKids_noSetLoc [a, b] kids hfree e hein
    · rcases List.mem_cons.1 hein with rfl | hein
      · rfl
      rcases List.mem_cons.1 hein with rfl | hein
      · rfl
      simp at hein
  · rw [htrace]
    show locAfter (some span) (Ev.enter a :: Ev.enter b ::
      (walkKids [a, b] kids ++
        [Ev.leave a, Ev.leave b, Ev.setLoc none])) = none
    rw [hsplit, locAfter_append]
    rfl

/-- Witness for C6 at a concrete statement node with a statement-free
construct child. -/
theorem composed_statement_traversal_witness :
    stmtFreeL [PTree.construct [PTree.plain []]] = true ∧
    (let trace := walkTree [0, 1]
        (PTree.stmt 7 [PTree.construct [PTree.plain []]])
     trace.get? 0 = some (Ev.setLoc (some 7)) ∧
     trace.get? 1 = some (Ev.enter 0) ∧
     trace.get? 2 = some (Ev.enter 1) ∧
     trace.get? (trace.length - 3) = some (Ev.leave 0) ∧
     trace.get? (trace.length - 2) = some (Ev.leave 1) ∧
     trace.get? (trace.length - 1) = some (Ev.setLoc none) ∧
     2 < trace.length - 3 ∧
     (∀ k, k < trace.length - 1 → 1 ≤ k →
       locAfter none (trace.take k) = some 7) ∧
     locAfter none trace = none) :=
  ⟨by decide,
    composed_statement_traversal 0 1 7 [PTree.construct [PTree.plain []]]
      (by decide)⟩

end Semantics
